import Mathlib

/-!
Shallow embedding of the persistent semantic index of the Sage repository
(file src/vector_store.py, class VectorStore).

Modelling choices:
* A stored vector is a list of rationals (exact arithmetic in place of the
  float vectors of faiss).
* The external sentence embedder (SentenceTransformer.encode) and the external
  normalisation routine (faiss.normalize_L2, applied row-wise) are parameters
  of every operation: the Python code only ever composes them, never inspects
  them.
* The faiss index IndexFlatIP is modelled by the list of vectors it holds, in
  insertion order; its search method is modelled after the faiss contract the
  spec relies on: the top min(k, ntotal) entries by descending inner product,
  ties broken by ascending position, padded with index -1 up to k when k
  exceeds ntotal.
* The three files written by pickle/faiss.write_index are modelled by a Disk
  record of three optional payloads; a present file holds exactly the value
  that was serialised.
* uuid.uuid4 is modelled by a parameter assigning a fresh id string to each
  chunk position of an add_documents call.
* A Python dict used as chunk metadata is modelled by the record ChunkMeta of
  the two keys the store reads or writes: filename and id; dict.get on a
  missing key is the none case of the Option.
-/

/-- A vector as held by the faiss index: a list of rationals. -/
abbrev Vec := List ℚ

/-- Inner product of two vectors, the score of faiss IndexFlatIP. -/
def dot : Vec → Vec → ℚ
  | [], _ => 0
  | _, [] => 0
  | a :: xs, b :: ys => a * b + dot xs ys

/-- Chunk metadata dict: the keys the store reads or writes. -/
structure ChunkMeta where
  filename : Option String
  id : Option String
deriving DecidableEq, Repr

instance : Inhabited ChunkMeta := ⟨⟨none, none⟩⟩

/-- In-memory state of a VectorStore: the faiss index contents, the metadata
list and the documents list. -/
structure VectorStore where
  index : List Vec
  metadata : List ChunkMeta
  documents : List String
deriving DecidableEq, Repr

/-- The persisted snapshot: the three files the store writes
(collection.index, collection_metadata.pkl, collection_documents.pkl),
each either absent or holding the serialised value. -/
structure Disk where
  indexFile : Option (List Vec)
  metadataFile : Option (List ChunkMeta)
  documentsFile : Option (List String)
deriving DecidableEq, Repr

/-- One entry of the list returned by VectorStore.search. -/
structure SearchResult where
  text : String
  metadata : ChunkMeta
  distance : ℚ
deriving DecidableEq, Repr

/-- The dict returned by VectorStore.get_stats. The files entry is a Python
set materialised to a list; its order is unspecified, so it is modelled as a
finite set. -/
structure Stats where
  total_chunks : ℕ
  unique_files : ℕ
  files : Finset String
deriving DecidableEq

/-- Ordering used by the faiss IndexFlatIP search model: higher score first,
ties broken by ascending position. -/
def faissLe (a b : ℤ × ℚ) : Prop := b.2 < a.2 ∨ (a.2 = b.2 ∧ a.1 ≤ b.1)

instance : DecidableRel faissLe := fun a b =>
  decidable_of_iff (b.2 < a.2 ∨ (a.2 = b.2 ∧ a.1 ≤ b.1)) Iff.rfl

instance : IsTotal (ℤ × ℚ) faissLe where
  total a b := by
    rcases lt_trichotomy a.2 b.2 with h | h | h
    · exact Or.inr (Or.inl h)
    · rcases le_total a.1 b.1 with h1 | h1
      · exact Or.inl (Or.inr ⟨h, h1⟩)
      · exact Or.inr (Or.inr ⟨h.symm, h1⟩)
    · exact Or.inl (Or.inl h)

instance : IsTrans (ℤ × ℚ) faissLe where
  trans a b c hab hbc := by
    rcases hab with h1 | ⟨h1, h1i⟩
    · rcases hbc with h2 | ⟨h2, _⟩
      · exact Or.inl (h2.trans h1)
      · exact Or.inl (h2 ▸ h1)
    · rcases hbc with h2 | ⟨h2, h2i⟩
      · exact Or.inl (h1 ▸ h2)
      · exact Or.inr ⟨h1.trans h2, h1i.trans h2i⟩

/-- Model of faiss IndexFlatIP.search on an index holding the given vectors:
score every position against the query, order by descending score with ties
by ascending position, return the first k entries, padding with position -1
when k exceeds the index size. -/
def faissSearch (index : List Vec) (q : Vec) (k : ℕ) : List (ℤ × ℚ) :=
  let scored := (List.range index.length).map
    (fun (i : ℕ) => ((i : ℤ), dot (index.getD i []) q))
  (scored.insertionSort faissLe).take k ++ List.replicate (k - index.length) (-1, 0)

section Ops

variable (encode : String → Vec) (normalize_L2 : Vec → Vec)

/-- VectorStore._load_or_create_index: if the index file exists, read the
index and unpickle metadata and documents (a missing pickle file raises, the
none case); otherwise start an empty store. -/
def _load_or_create_index (d : Disk) : Option VectorStore :=
  match d.indexFile with
  | some idx =>
      match d.metadataFile, d.documentsFile with
      | some m, some docs => some ⟨idx, m, docs⟩
      | _, _ => none
  | none => some ⟨[], [], []⟩

/-- VectorStore._save_index: write the index and pickle metadata and
documents, overwriting all three files. -/
def _save_index (s : VectorStore) : Disk :=
  ⟨some s.index, some s.metadata, some s.documents⟩

/-- VectorStore.add_documents: embed the chunk texts, normalise, append the
vectors to the index, append each metadata dict (with a fresh id written into
it) and each text, then save to disk. The ids argument models the uuid4
value drawn at each loop position. -/
def add_documents (s : VectorStore) (chunks : List (String × ChunkMeta))
    (ids : ℕ → String) : VectorStore × Disk :=
  let texts := chunks.map Prod.fst
  let embeddings := (texts.map encode).map normalize_L2
  let s' : VectorStore :=
    { index := s.index ++ embeddings
      metadata := s.metadata ++ chunks.enum.map (fun p => { p.2.2 with id := some (ids p.1) })
      documents := s.documents ++ texts }
  (s', _save_index s')

/-- VectorStore.search: empty index gives an empty list; otherwise embed and
normalise the query, search the index for min(top_k, ntotal) entries, and
format every entry whose position is not -1 as a result dict with
distance = 1 - score. -/
def search (s : VectorStore) (query : String) (top_k : ℕ) : List SearchResult :=
  if s.index.length = 0 then []
  else
    let query_embedding := normalize_L2 (encode query)
    let raw := faissSearch s.index query_embedding (min top_k s.index.length)
    (raw.filter (fun p => decide (p.1 ≠ -1))).map (fun p =>
      { text := s.documents.getD p.1.toNat ""
        metadata := s.metadata.getD p.1.toNat default
        distance := 1 - p.2 })

/-- VectorStore.file_exists: some metadata dict has the filename value. -/
def file_exists (s : VectorStore) (filename : String) : Bool :=
  s.metadata.any (fun m => decide (m.filename = some filename))

/-- VectorStore.delete_file: collect the positions whose metadata carries the
filename; if none, return immediately (the disk untouched, the Python return
value None); otherwise rebuild the store from the remaining positions by
re-embedding the remaining texts, and save. The Option is the Python return
value, always None. -/
def delete_file (s : VectorStore) (d : Disk) (filename : String) :
    (VectorStore × Disk) × Option ℕ :=
  let indices_to_delete := (List.range s.metadata.length).filter
    (fun i => decide ((s.metadata.getD i default).filename = some filename))
  if indices_to_delete = [] then ((s, d), none)
  else
    let remaining_indices := (List.range s.metadata.length).filter
      (fun i => decide (i ∉ indices_to_delete))
    if remaining_indices = [] then
      ((⟨[], [], []⟩, _save_index ⟨[], [], []⟩), none)
    else
      let remaining_texts := remaining_indices.map (fun i => s.documents.getD i "")
      let embeddings := (remaining_texts.map encode).map normalize_L2
      let s' : VectorStore :=
        ⟨embeddings, remaining_indices.map (fun i => s.metadata.getD i default),
          remaining_texts⟩
      ((s', _save_index s'), none)

/-- VectorStore.reset_database: empty index, metadata and documents, and
remove all three files from disk. -/
def reset_database (_s : VectorStore) (_d : Disk) : VectorStore × Disk :=
  (⟨[], [], []⟩, ⟨none, none, none⟩)

/-- VectorStore.get_stats: total_chunks is the documents length, unique_files
the set of filename values with default empty string and the empty string
discarded. -/
def get_stats (s : VectorStore) : Stats :=
  let unique_files := ((s.metadata.map (fun m => m.filename.getD "")).toFinset).erase ""
  ⟨s.documents.length, unique_files.card, unique_files⟩

/-- States of (store, disk) reachable from a fresh store (no snapshot on
disk) through the mutating public operations add_documents, delete_file and
reset_database. The read-only operations search, file_exists and get_stats do
not change the state. -/
inductive Reachable : VectorStore × Disk → Prop
  | init : Reachable (⟨[], [], []⟩, ⟨none, none, none⟩)
  | add (s : VectorStore) (d : Disk) (chunks : List (String × ChunkMeta))
      (ids : ℕ → String) : Reachable (s, d) →
      Reachable (add_documents encode normalize_L2 s chunks ids)
  | del (s : VectorStore) (d : Disk) (filename : String) : Reachable (s, d) →
      Reachable (delete_file encode normalize_L2 s d filename).1
  | reset (s : VectorStore) (d : Disk) : Reachable (s, d) →
      Reachable (reset_database s d)

end Ops

/-- Concrete embedder used by the concrete instances below: a one-dimensional
vector holding the length of the string. -/
def encC : String → Vec := fun t => [(t.length : ℚ)]

/-- Concrete normaliser used by the concrete instances below: the identity
map on vectors. -/
def normC : Vec → Vec := fun v => v

theorem getD_mem {α : Type} (l : List α) (d : α) {i : ℕ} (h : i < l.length) :
    l.getD i d ∈ l := by
  rw [List.getD_eq_getElem?_getD, List.getElem?_eq_getElem h]
  exact List.getElem_mem h

theorem getD_filename_ne (l : List ChunkMeta) (f : String)
    (h : ∀ m ∈ l, m.filename ≠ some f) (j : ℕ) :
    (l.getD j default).filename ≠ some f := by
  by_cases hj : j < l.length
  · exact h _ (getD_mem _ _ hj)
  · rw [List.getD_eq_default _ _ (le_of_not_lt hj)]
    exact fun hc => Option.noConfusion hc

theorem delete_file_noop (encode : String → Vec) (normalize_L2 : Vec → Vec)
    (s : VectorStore) (d : Disk) (f : String)
    (h : ∀ m ∈ s.metadata, m.filename ≠ some f) :
    delete_file encode normalize_L2 s d f = ((s, d), none) := by
  have hnil : (List.range s.metadata.length).filter
      (fun i => decide ((s.metadata.getD i default).filename = some f)) = [] := by
    rw [List.filter_eq_nil_iff]
    intro i hi
    simp only [List.mem_range] at hi
    simpa using h _ (getD_mem _ _ hi)
  simp only [delete_file]
  rw [if_pos hnil]

theorem delete_file_snd (encode : String → Vec) (normalize_L2 : Vec → Vec)
    (s : VectorStore) (d : Disk) (f : String) :
    (delete_file encode normalize_L2 s d f).2 = none := by
  simp only [delete_file]
  split
  · rfl
  · split
    · rfl
    · rfl

theorem delete_file_store (encode : String → Vec) (normalize_L2 : Vec → Vec)
    (s : VectorStore) (d : Disk) (f : String)
    (h : ∃ m ∈ s.metadata, m.filename = some f) :
    (delete_file encode normalize_L2 s d f).1.1 =
      ⟨((((List.range s.metadata.length).filter
            (fun i => decide ((s.metadata.getD i default).filename ≠ some f))).map
          (fun i => s.documents.getD i "")).map encode).map normalize_L2,
        ((List.range s.metadata.length).filter
            (fun i => decide ((s.metadata.getD i default).filename ≠ some f))).map
          (fun i => s.metadata.getD i default),
        ((List.range s.metadata.length).filter
            (fun i => decide ((s.metadata.getD i default).filename ≠ some f))).map
          (fun i => s.documents.getD i "")⟩ := by
  obtain ⟨m, hm, hf⟩ := h
  obtain ⟨i, hi, hgi⟩ := List.mem_iff_getElem.mp hm
  have hgd : s.metadata.getD i default = m := by
    rw [List.getD_eq_getElem?_getD, List.getElem?_eq_getElem hi, Option.getD_some, hgi]
  have hmemi : i ∈ (List.range s.metadata.length).filter
      (fun j => decide ((s.metadata.getD j default).filename = some f)) := by
    rw [List.mem_filter, List.mem_range]
    exact ⟨hi, by rw [hgd, hf]; simp⟩
  have hne : (List.range s.metadata.length).filter
      (fun j => decide ((s.metadata.getD j default).filename = some f)) ≠ [] :=
    List.ne_nil_of_mem hmemi
  have hcongr : (List.range s.metadata.length).filter
      (fun j => decide (j ∉ (List.range s.metadata.length).filter
        (fun i => decide ((s.metadata.getD i default).filename = some f))))
      = (List.range s.metadata.length).filter
        (fun j => decide ((s.metadata.getD j default).filename ≠ some f)) := by
    apply List.filter_congr
    intro j hj
    rw [decide_eq_decide]
    rw [List.mem_filter]
    simp [hj]
  simp only [delete_file]
  rw [if_neg hne, hcongr]
  split
  · rename_i hrem
    rw [hrem]
    try rfl
  · rfl

/-- Claim C10: deleting a filename that no catalog entry carries leaves the
in-memory store untouched and writes nothing to disk. -/
theorem delete_file_no_match (encode : String → Vec) (normalize_L2 : Vec → Vec)
    (s : VectorStore) (d : Disk) (f : String)
    (h : ∀ m ∈ s.metadata, m.filename ≠ some f) :
    (delete_file encode normalize_L2 s d f).1.1 = s ∧
    (delete_file encode normalize_L2 s d f).1.2 = d := by
  rw [delete_file_noop encode normalize_L2 s d f h]
  exact ⟨rfl, rfl⟩

theorem delete_file_no_match_witness :
    (∀ m ∈ (VectorStore.mk [[1]] [⟨some "b", none⟩] ["x"]).metadata,
        m.filename ≠ some "a") ∧
    ((delete_file encC normC ⟨[[1]], [⟨some "b", none⟩], ["x"]⟩
          ⟨none, none, none⟩ "a").1.1 = ⟨[[1]], [⟨some "b", none⟩], ["x"]⟩ ∧
      (delete_file encC normC ⟨[[1]], [⟨some "b", none⟩], ["x"]⟩
          ⟨none, none, none⟩ "a").1.2 = ⟨none, none, none⟩) :=
  ⟨by decide, delete_file_no_match encC normC ⟨[[1]], [⟨some "b", none⟩], ["x"]⟩
    ⟨none, none, none⟩ "a" (by decide)⟩

theorem countP_getD_range {α : Type} (l : List α) (d : α) (p : α → Bool) :
    l.countP p = ((List.range l.length).filter (fun i => p (l.getD i d))).length := by
  induction l with
  | nil => rfl
  | cons a t ih =>
      have hrange : List.range (a :: t).length
          = 0 :: List.map Nat.succ (List.range t.length) := by
        rw [List.length_cons, List.range_succ_eq_map]
      have hmap : (List.map Nat.succ (List.range t.length)).filter
            (fun i => p ((a :: t).getD i d))
          = List.map Nat.succ ((List.range t.length).filter (fun i => p (t.getD i d))) := by
        rw [List.filter_map]
        rfl
      rw [List.countP_cons, hrange, List.filter_cons, hmap]
      by_cases hpa : p a = true
      · simp [List.getD_cons_zero, hpa, ih]
      · simp [List.getD_cons_zero, hpa, ih]

/-- Claim C8 counterexample: on a store holding one chunk of file a, the
delete operation removes one chunk yet its return value is None, not the
removed count. -/
theorem delete_return_value_counterexample :
    ¬ ((delete_file encC normC ⟨[[1]], [⟨some "a", none⟩], ["x"]⟩
          ⟨none, none, none⟩ "a").2
        = some (([(⟨some "a", none⟩ : ChunkMeta)]).countP
            (fun m => decide (m.filename = some "a")))) := by
  rw [delete_file_snd]
  decide

/-- Claim C8 as amended: delete_file returns None; the number of chunks it
removes, the metadata length before minus after, equals the number of catalog
entries whose metadata filename equals the target at call time. -/
theorem delete_file_removed_count (encode : String → Vec) (normalize_L2 : Vec → Vec)
    (s : VectorStore) (d : Disk) (f : String) :
    s.metadata.length =
      ((delete_file encode normalize_L2 s d f).1.1).metadata.length
        + s.metadata.countP (fun m => decide (m.filename = some f)) ∧
    (delete_file encode normalize_L2 s d f).2 = none := by
  refine ⟨?_, delete_file_snd _ _ _ _ _⟩
  by_cases hex : ∃ m ∈ s.metadata, m.filename = some f
  · rw [delete_file_store _ _ _ _ _ hex]
    rw [countP_getD_range s.metadata default (fun m => decide (m.filename = some f))]
    simp only [List.length_map]
    have hp := (List.filter_append_perm
        (fun i => decide ((s.metadata.getD i default).filename = some f))
        (List.range s.metadata.length)).length_eq
    simp only [List.length_append, List.length_range] at hp
    simp only [ne_eq, decide_not]
    omega
  · push_neg at hex
    rw [delete_file_noop _ _ _ _ _ hex]
    have hz : s.metadata.countP (fun m => decide (m.filename = some f)) = 0 :=
      List.countP_eq_zero.mpr (by intro a ha; simpa using hex a ha)
    rw [hz]
    rfl

/-- Claim C5: saving a non-empty store and reloading from the same
persistence directory restores the store exactly, so any fixed query returns
identical search results. -/
theorem save_load_roundtrip (encode : String → Vec) (normalize_L2 : Vec → Vec)
    (s : VectorStore) (_h : s.index ≠ []) :
    _load_or_create_index (_save_index s) = some s ∧
    ∀ query top_k,
      Option.map (fun s2 => search encode normalize_L2 s2 query top_k)
          (_load_or_create_index (_save_index s))
        = some (search encode normalize_L2 s query top_k) := by
  refine ⟨rfl, fun query top_k => rfl⟩

theorem save_load_roundtrip_witness :
    (VectorStore.mk [[1]] [⟨some "a", none⟩] ["x"]).index ≠ [] ∧
    (_load_or_create_index (_save_index ⟨[[1]], [⟨some "a", none⟩], ["x"]⟩)
        = some ⟨[[1]], [⟨some "a", none⟩], ["x"]⟩ ∧
      ∀ query top_k,
        Option.map (fun s2 => search encC normC s2 query top_k)
            (_load_or_create_index (_save_index ⟨[[1]], [⟨some "a", none⟩], ["x"]⟩))
          = some (search encC normC ⟨[[1]], [⟨some "a", none⟩], ["x"]⟩ query top_k)) :=
  ⟨by simp, save_load_roundtrip encC normC ⟨[[1]], [⟨some "a", none⟩], ["x"]⟩ (by simp)⟩

/-- Claim C6: reset_database empties the in-memory index, metadata and
documents, get_stats then reports zero chunks and zero unique files, and all
three persisted files are removed from disk. -/
theorem reset_database_spec (s : VectorStore) (d : Disk) :
    (reset_database s d).1.index = [] ∧
    (reset_database s d).1.metadata = [] ∧
    (reset_database s d).1.documents = [] ∧
    (get_stats (reset_database s d).1).total_chunks = 0 ∧
    (get_stats (reset_database s d).1).unique_files = 0 ∧
    (reset_database s d).2.indexFile = none ∧
    (reset_database s d).2.metadataFile = none ∧
    (reset_database s d).2.documentsFile = none := by
  refine ⟨rfl, rfl, rfl, rfl, ?_, rfl, rfl, rfl⟩
  simp [get_stats, reset_database]

/-- Claim C7: search on a store whose index holds zero vectors returns the
empty list (and, being a total function of the model, never an error). -/
theorem search_empty (encode : String → Vec) (normalize_L2 : Vec → Vec)
    (s : VectorStore) (query : String) (top_k : ℕ) (h : s.index = []) :
    search encode normalize_L2 s query top_k = [] := by
  simp [search, h]

theorem search_empty_witness :
    (VectorStore.mk [] [] []).index = [] ∧
    search encC normC ⟨[], [], []⟩ "q" 5 = [] :=
  ⟨rfl, search_empty encC normC ⟨[], [], []⟩ "q" 5 rfl⟩

/-- Claim C9: get_stats counts every documents entry in total_chunks, while
unique_files is the number of distinct non-empty filename values among the
metadata entries; an entry with a missing or empty filename is excluded from
the files set and from the unique_files count. -/
theorem get_stats_spec (s : VectorStore) :
    (get_stats s).total_chunks = s.documents.length ∧
    (get_stats s).files
      = ((s.metadata.filterMap ChunkMeta.filename).filter
          (fun v => decide (v ≠ ""))).toFinset ∧
    (get_stats s).unique_files
      = ((s.metadata.filterMap ChunkMeta.filename).filter
          (fun v => decide (v ≠ ""))).toFinset.card := by
  have hfiles : (get_stats s).files
      = ((s.metadata.filterMap ChunkMeta.filename).filter
          (fun v => decide (v ≠ ""))).toFinset := by
    apply Finset.ext
    intro v
    simp only [get_stats, Finset.mem_erase, List.mem_toFinset, List.mem_map,
      List.mem_filter, List.mem_filterMap, decide_eq_true_eq]
    constructor
    · rintro ⟨hne, m, hm, hv⟩
      refine ⟨⟨m, hm, ?_⟩, hne⟩
      cases hfn : m.filename with
      | none =>
          rw [hfn] at hv
          exact absurd hv.symm hne
      | some w =>
          rw [hfn] at hv
          simp only [Option.getD_some] at hv
          rw [hv]
    · rintro ⟨⟨m, hm, hf⟩, hne⟩
      exact ⟨hne, m, hm, by rw [hf]; rfl⟩
  refine ⟨rfl, hfiles, ?_⟩
  have hcard : (get_stats s).unique_files = (get_stats s).files.card := rfl
  rw [hcard, hfiles]

theorem reachable_aligned (encode : String → Vec) (normalize_L2 : Vec → Vec)
    (st : VectorStore × Disk) (h : Reachable encode normalize_L2 st) :
    st.1.metadata.length = st.1.documents.length ∧
    st.1.index = st.1.documents.map (fun t => normalize_L2 (encode t)) := by
  induction h with
  | init => exact ⟨rfl, rfl⟩
  | add s d chunks ids hr ih =>
      obtain ⟨ih1, ih2⟩ := ih
      constructor
      · simp [add_documents, List.enum_length, ih1]
      · simp only [add_documents, List.map_append, List.map_map]
        rw [ih2]
        rfl
  | del s d f hr ih =>
      by_cases hex : ∃ m ∈ s.metadata, m.filename = some f
      · rw [delete_file_store _ _ _ _ _ hex]
        constructor
        · simp
        · simp only [List.map_map]
          rfl
      · push_neg at hex
        rw [delete_file_noop _ _ _ _ _ hex]
        exact ih
  | reset s d hr ih => exact ⟨rfl, rfl⟩

/-- Claim C1: in every state reachable through the public operations, the
index, the metadata catalog and the documents list have the same length, and
the vector at position i of the index is the normalised embedding of the
document text at position i. The read-only operations search, file_exists and
get_stats take no state to a new one. -/
theorem alignment_invariant (encode : String → Vec) (normalize_L2 : Vec → Vec)
    (st : VectorStore × Disk) (h : Reachable encode normalize_L2 st) :
    st.1.index.length = st.1.metadata.length ∧
    st.1.metadata.length = st.1.documents.length ∧
    ∀ i, i < st.1.documents.length →
      st.1.index.getD i [] = normalize_L2 (encode (st.1.documents.getD i "")) := by
  obtain ⟨h1, h2⟩ := reachable_aligned encode normalize_L2 st h
  refine ⟨by rw [h2, List.length_map, h1], h1, ?_⟩
  intro i hi
  have hi2 : i < (st.1.documents.map (fun t => normalize_L2 (encode t))).length := by
    rw [List.length_map]; exact hi
  rw [h2, List.getD_eq_getElem?_getD, List.getElem?_eq_getElem hi2, Option.getD_some,
    List.getElem_map, List.getD_eq_getElem?_getD, List.getElem?_eq_getElem hi,
    Option.getD_some]

theorem faissSearch_spec (index : List Vec) (q : Vec) (k : ℕ) (hk : k ≤ index.length) :
    (faissSearch index q k).length = k ∧
    (∀ p ∈ faissSearch index q k, ∃ i : ℕ, i < index.length ∧
        p = ((i : ℤ), dot (index.getD i []) q)) ∧
    (faissSearch index q k).Pairwise faissLe ∧
    ((faissSearch index q k).map Prod.fst).Nodup := by
  have hpad : List.replicate (k - index.length) ((-1 : ℤ), (0 : ℚ)) = [] := by
    rw [Nat.sub_eq_zero_of_le hk, List.replicate_zero]
  have hform : faissSearch index q k
      = (((List.range index.length).map
          (fun (i : ℕ) => ((i : ℤ), dot (index.getD i []) q))).insertionSort
            faissLe).take k := by
    simp only [faissSearch]
    rw [hpad, List.append_nil]
  have hperm := List.perm_insertionSort faissLe
    ((List.range index.length).map (fun (i : ℕ) => ((i : ℤ), dot (index.getD i []) q)))
  have hlen_sorted : (((List.range index.length).map
      (fun (i : ℕ) => ((i : ℤ), dot (index.getD i []) q))).insertionSort
        faissLe).length = index.length := by
    rw [hperm.length_eq, List.length_map, List.length_range]
  refine ⟨?_, ?_, ?_, ?_⟩
  · rw [hform, List.length_take, hlen_sorted, min_eq_left hk]
  · intro p hp
    rw [hform] at hp
    have hp2 := (List.take_sublist _ _).subset hp
    obtain ⟨i, hi, hpi⟩ := List.mem_map.mp (hperm.mem_iff.mp hp2)
    exact ⟨i, List.mem_range.mp hi, hpi.symm⟩
  · rw [hform]
    exact List.Pairwise.sublist (List.take_sublist _ _)
      (List.sorted_insertionSort faissLe _)
  · rw [hform, List.map_take]
    apply List.Nodup.sublist (List.take_sublist _ _)
    apply (hperm.map Prod.fst).nodup_iff.mpr
    rw [List.map_map]
    apply List.Nodup.map
    · intro a b hab
      exact Int.natCast_inj.mp hab
    · exact List.nodup_range index.length

/-- Claim C2: on a non-empty store, search returns exactly
min(top_k, index size) results, arising from a list of (position, score)
pairs: each score is the inner product of the stored (normalised) vector at
that position with the normalised query embedding, the pairs are ordered by
non-increasing score with ties broken by ascending position, and each result
has distance exactly 1 - score. -/
theorem search_ranking (encode : String → Vec) (normalize_L2 : Vec → Vec)
    (s : VectorStore) (query : String) (top_k : ℕ) (h : s.index ≠ []) :
    ∃ l : List (ℕ × ℚ),
      l.length = min top_k s.index.length ∧
      search encode normalize_L2 s query top_k
        = l.map (fun p => ⟨s.documents.getD p.1 "", s.metadata.getD p.1 default,
            1 - p.2⟩) ∧
      (∀ p ∈ l, p.1 < s.index.length ∧
        p.2 = dot (s.index.getD p.1 []) (normalize_L2 (encode query))) ∧
      l.Pairwise (fun a b => b.2 ≤ a.2 ∧ (a.2 = b.2 → a.1 < b.1)) := by
  have hn0 : ¬ s.index.length = 0 := fun hc => h (List.length_eq_zero.mp hc)
  have hk : min top_k s.index.length ≤ s.index.length := min_le_right _ _
  obtain ⟨hlen, hmem, hpair, hnodup⟩ :=
    faissSearch_spec s.index (normalize_L2 (encode query)) (min top_k s.index.length) hk
  have hnonneg : ∀ p ∈ faissSearch s.index (normalize_L2 (encode query))
      (min top_k s.index.length), (0 : ℤ) ≤ p.1 := by
    intro p hp
    obtain ⟨i, _, rfl⟩ := hmem p hp
    exact Int.natCast_nonneg i
  have hfilter : (faissSearch s.index (normalize_L2 (encode query))
        (min top_k s.index.length)).filter (fun p => decide (p.1 ≠ -1))
      = faissSearch s.index (normalize_L2 (encode query)) (min top_k s.index.length) := by
    apply List.filter_eq_self.mpr
    intro p hp
    have h0 := hnonneg p hp
    rw [decide_eq_true_eq]
    omega
  have hsearch : search encode normalize_L2 s query top_k
      = (faissSearch s.index (normalize_L2 (encode query))
          (min top_k s.index.length)).map
          (fun p => ⟨s.documents.getD p.1.toNat "", s.metadata.getD p.1.toNat default,
            1 - p.2⟩) := by
    simp only [search]
    rw [if_neg hn0, hfilter]
  refine ⟨(faissSearch s.index (normalize_L2 (encode query))
      (min top_k s.index.length)).map (fun p => (p.1.toNat, p.2)), ?_, ?_, ?_, ?_⟩
  · rw [List.length_map, hlen]
  · rw [hsearch, List.map_map]
    try rfl
  · intro p hp
    obtain ⟨p', hp', rfl⟩ := List.mem_map.mp hp
    obtain ⟨i, hi, rfl⟩ := hmem p' hp'
    exact ⟨by simpa using hi, rfl⟩
  · rw [List.pairwise_map]
    have hne := List.pairwise_map.mp hnodup
    have hcomb := hpair.and hne
    apply List.Pairwise.imp_of_mem ?_ hcomb
    intro a b ha hb hab
    obtain ⟨hab1, hab2⟩ := hab
    have ha0 := hnonneg a ha
    have hb0 := hnonneg b hb
    rcases hab1 with hlt | ⟨heq, hle⟩
    · refine ⟨le_of_lt hlt, fun hc => absurd hlt ?_⟩
      rw [hc]
      exact lt_irrefl _
    · refine ⟨le_of_eq heq.symm, fun _ => ?_⟩
      have hlt2 : a.1 < b.1 := lt_of_le_of_ne hle hab2
      omega

theorem search_ranking_witness :
    (VectorStore.mk [[1]] [⟨some "a", none⟩] ["x"]).index ≠ [] ∧
    ∃ l : List (ℕ × ℚ),
      l.length = min 3 (VectorStore.mk [[1]] [⟨some "a", none⟩] ["x"]).index.length ∧
      search encC normC ⟨[[1]], [⟨some "a", none⟩], ["x"]⟩ "q" 3
        = l.map (fun p =>
            ⟨(VectorStore.mk [[1]] [⟨some "a", none⟩] ["x"]).documents.getD p.1 "",
              (VectorStore.mk [[1]] [⟨some "a", none⟩] ["x"]).metadata.getD p.1 default,
              1 - p.2⟩) ∧
      (∀ p ∈ l, p.1 < (VectorStore.mk [[1]] [⟨some "a", none⟩] ["x"]).index.length ∧
        p.2 = dot ((VectorStore.mk [[1]] [⟨some "a", none⟩] ["x"]).index.getD p.1 [])
          (normC (encC "q"))) ∧
      l.Pairwise (fun a b => b.2 ≤ a.2 ∧ (a.2 = b.2 → a.1 < b.1)) :=
  ⟨by decide,
    search_ranking encC normC ⟨[[1]], [⟨some "a", none⟩], ["x"]⟩ "q" 3 (by decide)⟩

theorem search_result_metadata (encode : String → Vec) (normalize_L2 : Vec → Vec)
    (s : VectorStore) (query : String) (top_k : ℕ) (r : SearchResult)
    (hr : r ∈ search encode normalize_L2 s query top_k) :
    ∃ j : ℕ, r.metadata = s.metadata.getD j default := by
  simp only [search] at hr
  split at hr
  · exact absurd hr (List.not_mem_nil r)
  · obtain ⟨p, hp, hpr⟩ := List.mem_map.mp hr
    exact ⟨p.1.toNat, by rw [← hpr]⟩

/-- Claim C3: after delete_file on a filename, file_exists on that filename
is false and no search result of any query carries metadata with that
filename. -/
theorem delete_file_completeness (encode : String → Vec) (normalize_L2 : Vec → Vec)
    (s : VectorStore) (d : Disk) (f : String) :
    file_exists (delete_file encode normalize_L2 s d f).1.1 f = false ∧
    ∀ query top_k, ∀ r ∈ search encode normalize_L2
        (delete_file encode normalize_L2 s d f).1.1 query top_k,
      r.metadata.filename ≠ some f := by
  have hall : ∀ m ∈ (delete_file encode normalize_L2 s d f).1.1.metadata,
      m.filename ≠ some f := by
    by_cases hex : ∃ m ∈ s.metadata, m.filename = some f
    · rw [delete_file_store _ _ _ _ _ hex]
      intro m hm
      obtain ⟨i, hi, hmi⟩ := List.mem_map.mp hm
      have hpi := (List.mem_filter.mp hi).2
      rw [← hmi]
      simpa using hpi
    · push_neg at hex
      rw [delete_file_noop _ _ _ _ _ hex]
      exact hex
  constructor
  · exact List.any_eq_false.mpr (fun m hm => by simpa using hall m hm)
  · intro query top_k r hr
    obtain ⟨j, hj⟩ := search_result_metadata _ _ _ _ _ _ hr
    rw [hj]
    exact getD_filename_ne _ _ hall j

theorem delete_file_completeness_witness :
    file_exists (delete_file encC normC
        ⟨[[1], [1]], [⟨some "a", none⟩, ⟨some "b", none⟩], ["x", "y"]⟩
        ⟨none, none, none⟩ "a").1.1 "a" = false ∧
    (SearchResult.mk "y" ⟨some "b", none⟩ (1 - dot [1] [1])).metadata.filename
      ≠ some "a" :=
  ⟨(delete_file_completeness encC normC
      ⟨[[1], [1]], [⟨some "a", none⟩, ⟨some "b", none⟩], ["x", "y"]⟩
      ⟨none, none, none⟩ "a").1,
    (delete_file_completeness encC normC
      ⟨[[1], [1]], [⟨some "a", none⟩, ⟨some "b", none⟩], ["x", "y"]⟩
      ⟨none, none, none⟩ "a").2 "q" 5 ⟨"y", ⟨some "b", none⟩, 1 - dot [1] [1]⟩
      (List.Mem.head _)⟩

theorem zip_getD_filter {α β : Type} (da : α) (db : β) (q : β → Bool)
    (ys : List β) : ∀ xs : List α, xs.length = ys.length →
    ((List.range ys.length).filter (fun i => q (ys.getD i db))).map
        (fun i => (xs.getD i da, ys.getD i db))
      = (xs.zip ys).filter (fun p => q p.2) := by
  induction ys with
  | nil =>
      intro xs h
      simp [List.zip_nil_right]
  | cons y ys ih =>
      intro xs h
      cases xs with
      | nil => simp at h
      | cons x xs =>
          have hlen : xs.length = ys.length := by simpa using h
          have hrange : List.range (y :: ys).length
              = 0 :: List.map Nat.succ (List.range ys.length) := by
            rw [List.length_cons, List.range_succ_eq_map]
          have hmap : (List.map Nat.succ (List.range ys.length)).filter
                (fun i => q ((y :: ys).getD i db))
              = List.map Nat.succ
                  ((List.range ys.length).filter (fun i => q (ys.getD i db))) := by
            rw [List.filter_map]
            rfl
          rw [hrange, List.filter_cons, hmap, List.zip_cons_cons, List.filter_cons]
          by_cases hqy : q y = true
          · rw [if_pos (show q ((y :: ys).getD 0 db) = true from hqy),
              if_pos (show q (x, y).2 = true from hqy), List.map_cons, List.map_map]
            congr 1
            exact ih xs hlen
          · rw [if_neg (show ¬ q ((y :: ys).getD 0 db) = true from hqy),
              if_neg (show ¬ q (x, y).2 = true from hqy), List.map_map]
            exact ih xs hlen

/-- Claim C4: delete_file retains every chunk whose metadata filename is not
the target, with text and metadata unchanged and relative order preserved,
and the rebuilt index is co-indexed with the renumbered retained chunks. The
index conjuncts need the entry store to satisfy the alignment invariant of
reachable states. -/
theorem delete_file_preserves_others (encode : String → Vec) (normalize_L2 : Vec → Vec)
    (s : VectorStore) (d : Disk) (f : String)
    (hlen : s.metadata.length = s.documents.length)
    (hidx : s.index = s.documents.map (fun t => normalize_L2 (encode t))) :
    (delete_file encode normalize_L2 s d f).1.1.documents.zip
        (delete_file encode normalize_L2 s d f).1.1.metadata
      = (s.documents.zip s.metadata).filter (fun p => decide (p.2.filename ≠ some f)) ∧
    (delete_file encode normalize_L2 s d f).1.1.index
      = (delete_file encode normalize_L2 s d f).1.1.documents.map
          (fun t => normalize_L2 (encode t)) ∧
    (delete_file encode normalize_L2 s d f).1.1.index.length
      = (delete_file encode normalize_L2 s d f).1.1.documents.length := by
  by_cases hex : ∃ m ∈ s.metadata, m.filename = some f
  · rw [delete_file_store _ _ _ _ _ hex]
    refine ⟨?_, ?_, by simp⟩
    · rw [List.zip_map']
      rw [← zip_getD_filter "" default (fun m => decide (m.filename ≠ some f))
        s.metadata s.documents (hlen.symm)]
      try rfl
    · rw [List.map_map]
      try rfl
  · push_neg at hex
    rw [delete_file_noop _ _ _ _ _ hex]
    refine ⟨?_, hidx, by rw [hidx, List.length_map]⟩
    refine (List.filter_eq_self.mpr ?_).symm
    intro p hp
    have hmem := List.of_mem_zip hp
    simpa using hex p.2 hmem.2

theorem delete_file_preserves_others_witness :
    ((VectorStore.mk [[1], [1]] [⟨some "a", none⟩, ⟨some "b", none⟩]
        ["x", "y"]).metadata.length
      = (VectorStore.mk [[1], [1]] [⟨some "a", none⟩, ⟨some "b", none⟩]
        ["x", "y"]).documents.length) ∧
    ((VectorStore.mk [[1], [1]] [⟨some "a", none⟩, ⟨some "b", none⟩]
        ["x", "y"]).index
      = (VectorStore.mk [[1], [1]] [⟨some "a", none⟩, ⟨some "b", none⟩]
        ["x", "y"]).documents.map (fun t => normC (encC t))) ∧
    ((delete_file encC normC
        ⟨[[1], [1]], [⟨some "a", none⟩, ⟨some "b", none⟩], ["x", "y"]⟩
        ⟨none, none, none⟩ "a").1.1.documents.zip
        (delete_file encC normC
          ⟨[[1], [1]], [⟨some "a", none⟩, ⟨some "b", none⟩], ["x", "y"]⟩
          ⟨none, none, none⟩ "a").1.1.metadata
      = ((["x", "y"] : List String).zip
            [(⟨some "a", none⟩ : ChunkMeta), ⟨some "b", none⟩]).filter
          (fun p => decide (p.2.filename ≠ some "a")) ∧
      (delete_file encC normC
          ⟨[[1], [1]], [⟨some "a", none⟩, ⟨some "b", none⟩], ["x", "y"]⟩
          ⟨none, none, none⟩ "a").1.1.index
        = (delete_file encC normC
            ⟨[[1], [1]], [⟨some "a", none⟩, ⟨some "b", none⟩], ["x", "y"]⟩
            ⟨none, none, none⟩ "a").1.1.documents.map (fun t => normC (encC t)) ∧
      (delete_file encC normC
          ⟨[[1], [1]], [⟨some "a", none⟩, ⟨some "b", none⟩], ["x", "y"]⟩
          ⟨none, none, none⟩ "a").1.1.index.length
        = (delete_file encC normC
            ⟨[[1], [1]], [⟨some "a", none⟩, ⟨some "b", none⟩], ["x", "y"]⟩
            ⟨none, none, none⟩ "a").1.1.documents.length) :=
  ⟨by decide, by decide,
    delete_file_preserves_others encC normC
      ⟨[[1], [1]], [⟨some "a", none⟩, ⟨some "b", none⟩], ["x", "y"]⟩
      ⟨none, none, none⟩ "a" (by decide) (by decide)⟩

theorem alignment_invariant_witness :
    (add_documents encC normC ⟨[], [], []⟩ [("x", ⟨some "a", none⟩)]
        (fun _ => "u")).1.index.length
      = (add_documents encC normC ⟨[], [], []⟩ [("x", ⟨some "a", none⟩)]
        (fun _ => "u")).1.metadata.length ∧
    (add_documents encC normC ⟨[], [], []⟩ [("x", ⟨some "a", none⟩)]
        (fun _ => "u")).1.metadata.length
      = (add_documents encC normC ⟨[], [], []⟩ [("x", ⟨some "a", none⟩)]
        (fun _ => "u")).1.documents.length ∧
    ∀ i, i < (add_documents encC normC ⟨[], [], []⟩ [("x", ⟨some "a", none⟩)]
        (fun _ => "u")).1.documents.length →
      (add_documents encC normC ⟨[], [], []⟩ [("x", ⟨some "a", none⟩)]
          (fun _ => "u")).1.index.getD i []
        = normC (encC ((add_documents encC normC ⟨[], [], []⟩
            [("x", ⟨some "a", none⟩)] (fun _ => "u")).1.documents.getD i "")) :=
  alignment_invariant encC normC _
    (Reachable.add ⟨[], [], []⟩ ⟨none, none, none⟩ [("x", ⟨some "a", none⟩)]
      (fun _ => "u") Reachable.init)
